import Mathlib

/-!
# Verification of the font install/verify utility

Shallow embedding of `scripts/install_fonts.py` and `tests/test_fonts.py`.

Modelling choices:
* A font payload is a byte buffer, modelled as `List Nat`.
* `hashlib.sha256(...).hexdigest()` is an external cryptographic primitive; it is
  modelled as an abstract parameter `hash : Bytes → String` threaded through all
  definitions (the code only ever compares its output to the pinned constant).
* The filesystem is the finite state the program touches: the three target paths
  of `FONT_TARGETS`, their `.tmp` siblings, and their parent directories. A file
  entry records contents and whether reading succeeds (`OSError` ⇔ not readable).
* The network (`urllib.request.urlopen`) is modelled by a `Net` value: either a
  transport failure (`urllib.error.URLError`) or the response payload bytes.
* Writes performed by `ensure_targets` are decomposed into primitive filesystem
  operations (`Op`): `mkdir -p`, writing the temp sibling, and `os.replace`.
  `ensure_go` returns both the final state and the full operation trace, so that
  intermediate (interrupted) states are the fold of a trace's initial segment.
* `print(...)` status/warning lines are modelled as structured values (`Action`
  for the distributor, `Note` for the cache probe); fatal `RuntimeError` /
  `AssertionError` messages are modelled as the literal strings the code builds.
* `fontTools` is external: a font is represented by its best character map, the
  list of covered code points; `unicodedata.name` is an abstract `Char → Bool`
  classifier parameter.
-/

namespace Fonts

/-- A byte buffer (Python `bytes`). -/
abbrev Bytes := List Nat

/-- Upstream URL constant `FONT_URL` from `install_fonts.py`. -/
def FONT_URL : String :=
  "https://github.com/googlefonts/noto-fonts/raw/main/hinted/ttf/NotoSans/NotoSans-Regular.ttf"

/-- Pinned digest constant `FONT_SHA256` from `install_fonts.py`. -/
def FONT_SHA256 : String :=
  "b85c38ecea8a7cfb39c24e395a4007474fa5a4fc864f6ee33309eb4948d232d5"

/-- Constant `FONT_FILENAME` from `install_fonts.py`. -/
def FONT_FILENAME : String := "NotoSans-Regular.ttf"

/-- The three fixed target locations (`FONT_TARGETS`), indexed `0`, `1`, `2`
in list order. -/
def FONT_TARGETS : List (Fin 3) := [0, 1, 2]

/-- The path text of each target, relative to the repository root. -/
def targetPath : Fin 3 → String
  | ⟨0, _⟩ => "OWML_fonts_patch/Fonts/" ++ FONT_FILENAME
  | ⟨1, _⟩ => "OWML_fonts_patch/Mods/PacificEngine.CheatsMod/Fonts/" ++ FONT_FILENAME
  | ⟨2, _⟩ => "OWML_fonts_patch/Mods/clubby789.OWClock/Fonts/" ++ FONT_FILENAME

/-- A file on disk: its byte content, and whether reading it succeeds
(`readable = false` models a read that raises `OSError`). -/
structure Entry where
  readable : Bool
  content : Bytes
  deriving DecidableEq, Repr

/-- The filesystem state the program touches: the three target files, their
`.tmp` siblings, and the parent directories of the targets. -/
@[ext]
structure FS where
  files : Fin 3 → Option Entry
  tmps : Fin 3 → Option Entry
  dirs : Fin 3 → Bool

instance : DecidableEq FS := fun a b =>
  decidable_of_iff _ FS.ext_iff.symm

instance {ε α : Type} [DecidableEq ε] [DecidableEq α] : DecidableEq (Except ε α) := fun x y =>
  match x, y with
  | Except.error a, Except.error b =>
      if h : a = b then isTrue (by rw [h]) else
        isFalse (fun hc => h (by injection hc))
  | Except.error _, Except.ok _ => isFalse (fun hc => Except.noConfusion hc)
  | Except.ok _, Except.error _ => isFalse (fun hc => Except.noConfusion hc)
  | Except.ok a, Except.ok b =>
      if h : a = b then isTrue (by rw [h]) else
        isFalse (fun hc => h (by injection hc))

/-- Outcome of the single network fetch: transport failure
(`urllib.error.URLError`) or the response body. -/
inductive Net where
  | urlError (msg : String)
  | ok (payload : Bytes)
  deriving DecidableEq, Repr

/-- Primitive filesystem operations performed by the distributor, in the order
the code issues them. -/
inductive Op where
  | mkdirP (i : Fin 3)
  | writeTmp (i : Fin 3) (data : Bytes)
  | replaceTmp (i : Fin 3)
  deriving DecidableEq, Repr

/-- Status lines printed by `ensure_targets` for one target. -/
inductive Action where
  | upToDate (i : Fin 3)
  | mismatchRefresh (i : Fin 3)
  | readWarning (i : Fin 3)
  | wouldWrite (i : Fin 3)
  | wrote (i : Fin 3)
  deriving DecidableEq, Repr

/-- Warning lines printed to stderr by `existing_font_bytes`. -/
inductive Note where
  | couldNotRead (i : Fin 3)
  | unexpectedHash (i : Fin 3) (digest : String)
  deriving DecidableEq, Repr

/-- Effect of one primitive operation on the filesystem.
`replaceTmp` is `os.replace`: it atomically moves the whole temp entry over the
target path in a single step. -/
def applyOp (fs : FS) : Op → FS
  | Op.mkdirP i => { fs with dirs := Function.update fs.dirs i true }
  | Op.writeTmp i data =>
      { fs with tmps := Function.update fs.tmps i (some ⟨true, data⟩) }
  | Op.replaceTmp i =>
      match fs.tmps i with
      | some e =>
          { fs with files := Function.update fs.files i (some e),
                    tmps := Function.update fs.tmps i none }
      | none => fs

/-- `existing_font_bytes` from `install_fonts.py`, as a scan over a list of
target indices.  First component: the returned value (`bytes | None`); second
component: the stderr warnings, in emission order. -/
def probeTargets (hash : Bytes → String) (fs : FS) : List (Fin 3) → Option Bytes × List Note
  | [] => (none, [])
  | t :: rest =>
    match fs.files t with
    | none => probeTargets hash fs rest
    | some e =>
      if e.readable = false then
        ((probeTargets hash fs rest).1,
          Note.couldNotRead t :: (probeTargets hash fs rest).2)
      else if hash e.content = FONT_SHA256 then
        (some e.content, [])
      else
        ((probeTargets hash fs rest).1,
          Note.unexpectedHash t (hash e.content) :: (probeTargets hash fs rest).2)

/-- `existing_font_bytes`: scan `FONT_TARGETS` for a valid cached copy. -/
def existing_font_bytes (hash : Bytes → String) (fs : FS) : Option Bytes × List Note :=
  probeTargets hash fs FONT_TARGETS

/-- `download_font` from `install_fonts.py`: the fetch result is validated
against `FONT_SHA256`; failures raise `RuntimeError` with the messages the code
builds. -/
def download_font (hash : Bytes → String) : Net → Except String Bytes
  | Net.urlError exc =>
      Except.error ("Failed to download " ++ FONT_URL ++ ": " ++ exc)
  | Net.ok payload =>
      if hash payload ≠ FONT_SHA256 then
        Except.error ("Downloaded font does not match expected SHA-256. Expected "
          ++ FONT_SHA256 ++ ", got " ++ hash payload ++ ".")
      else
        Except.ok payload

/-- The write tail of the loop body of `ensure_targets`: either report the
intended write (dry run) or write the temp sibling and replace it over the
target. -/
def writeOps (i : Fin 3) (b : Bytes) (dry : Bool) : List Op :=
  if dry then [] else [Op.writeTmp i b, Op.replaceTmp i]

/-- The status line emitted by the write tail of the loop body. -/
def writeAct (i : Fin 3) (dry : Bool) : Action :=
  if dry then Action.wouldWrite i else Action.wrote i

/-- One iteration of the `for target in FONT_TARGETS` loop of `ensure_targets`:
the primitive operations issued and the status lines printed, for target `i`.
`mkdir(parents=True, exist_ok=True)` always comes first; the skip branch fires
only when the target exists, `force` is off, the read succeeds and the digest
matches. -/
def step (hash : Bytes → String) (b : Bytes) (force dry : Bool) (fs : FS) (i : Fin 3) :
    List Op × List Action :=
  match fs.files i, force with
  | some e, false =>
    if e.readable then
      if hash e.content = FONT_SHA256 then
        ([Op.mkdirP i], [Action.upToDate i])
      else
        (Op.mkdirP i :: writeOps i b dry, [Action.mismatchRefresh i, writeAct i dry])
    else
      (Op.mkdirP i :: writeOps i b dry, [Action.readWarning i, writeAct i dry])
  | _, _ => (Op.mkdirP i :: writeOps i b dry, [writeAct i dry])

/-- The loop of `ensure_targets` over a list of target indices: final state,
status lines, and the full primitive-operation trace. -/
def ensure_go (hash : Bytes → String) (b : Bytes) (force dry : Bool) :
    FS → List (Fin 3) → FS × List Action × List Op
  | fs, [] => (fs, [], [])
  | fs, t :: rest =>
    let s := step hash b force dry fs t
    let fs1 := s.1.foldl applyOp fs
    let r := ensure_go hash b force dry fs1 rest
    (r.1, s.2 ++ r.2.1, s.1 ++ r.2.2)

/-- `ensure_targets` from `install_fonts.py`: distribute `b` to every target. -/
def ensure_targets (hash : Bytes → String) (b : Bytes) (force dry : Bool) (fs : FS) :
    FS × List Action :=
  ((ensure_go hash b force dry fs FONT_TARGETS).1,
   (ensure_go hash b force dry fs FONT_TARGETS).2.1)

/-- The primitive-operation trace of one `ensure_targets` run. -/
def ensure_ops (hash : Bytes → String) (b : Bytes) (force dry : Bool) (fs : FS) : List Op :=
  (ensure_go hash b force dry fs FONT_TARGETS).2.2

/-- `main` from `install_fonts.py` with parsed flags.  Returns the final
filesystem and either the distributor's status lines (exit code 0) or the fatal
error message (non-zero exit).  The cache probe and the fetch perform no
writes, so on a fatal error the filesystem is the input one. -/
def main (hash : Bytes → String) (net : Net) (force dry_run : Bool) (fs : FS) :
    FS × Except String (List Action) :=
  match (if force then none else (existing_font_bytes hash fs).1) with
  | some b =>
      let r := ensure_targets hash b force dry_run fs
      (r.1, Except.ok r.2)
  | none =>
      match download_font hash net with
      | Except.error e => (fs, Except.error e)
      | Except.ok payload =>
          let r := ensure_targets hash payload force dry_run fs
          (r.1, Except.ok r.2)

/-! ## The verifier (`tests/test_fonts.py`) -/

/-- The literal alphabet string appended to the text corpus in
`load_required_characters` (the two adjacent Python literals concatenated). -/
def cyrillicAlphabet : String :=
  "АБВГДЕЁЖЗИЙКЛМНОПРСТУФХЦЧШЩЪЫЬЭЮЯабвгдеёжзийклмнопрстуфхцчшщъыьэюя"

/-- `_iter_cyrillic_characters`: the set of characters of the given strings
classified as Cyrillic.  `isCyr` models the `"CYRILLIC" in unicodedata.name(c, "")`
test, an external Unicode-database lookup. -/
def iter_cyrillic_characters (isCyr : Char → Bool) (strings : List String) : Finset Char :=
  (((strings.map String.toList).flatten).filter isCyr).toFinset

/-- `load_required_characters`: the strings extracted from the three JSON
configuration files (external inputs, passed as `configTexts`) plus the literal
alphabet, reduced to the Cyrillic character set. -/
def load_required_characters (isCyr : Char → Bool) (configTexts : List String) : Finset Char :=
  iter_cyrillic_characters isCyr (configTexts ++ [cyrillicAlphabet])

/-- `verify_font_contains`: `cmap` is the font's best character map (the set of
covered code points, from `fontTools`); characters of `required_chars` are
scanned in sorted order and the missing ones reported in the assertion
message. -/
def verify_font_contains (font_path : String) (cmap : List Nat)
    (required_chars : Finset Char) : Except String Unit :=
  let missing := (required_chars.sort (· ≤ ·)).filter (fun char => !(cmap.contains char.toNat))
  if missing.isEmpty then Except.ok ()
  else Except.error (font_path ++ " is missing glyphs for: " ++ String.mk missing)

/-- The per-target loop of the verifier's `main`: existence check, digest
check, then the glyph audit.  Returns the indices audited, in order. -/
def checkTargets (hash : Bytes → String) (fs : FS) (required : Finset Char)
    (cmaps : Fin 3 → List Nat) : List (Fin 3) → Except String (List (Fin 3))
  | [] => Except.ok []
  | t :: rest =>
    match fs.files t with
    | none => Except.error ("Expected font at " ++ targetPath t)
    | some e =>
      if e.readable = false then
        Except.error ("could not read " ++ targetPath t)
      else if hash e.content ≠ FONT_SHA256 then
        Except.error ("Unexpected font hash at " ++ targetPath t ++ ": " ++ hash e.content)
      else
        match verify_font_contains (targetPath t) (cmaps t) required with
        | Except.error m => Except.error m
        | Except.ok _ =>
            (checkTargets hash fs required cmaps rest).map (fun l => t :: l)

/-- `main` of `tests/test_fonts.py`: run the installer, collect the required
characters, guard against an empty set, then audit every target.  On success it
returns the audited targets; the empty-corpus guard fires before any per-font
check, so the audit list is empty on that failure. -/
def test_fonts_main (hash : Bytes → String) (net : Net) (fs : FS)
    (isCyr : Char → Bool) (configTexts : List String) (cmaps : Fin 3 → List Nat) :
    Except String (List (Fin 3)) :=
  match (main hash net false false fs).2 with
  | Except.error e => Except.error e
  | Except.ok _ =>
    let fs1 := (main hash net false false fs).1
    let required := load_required_characters isCyr configTexts
    if required = ∅ then
      Except.error "Did not detect any Cyrillic characters to verify."
    else
      checkTargets hash fs1 required cmaps FONT_TARGETS

/-! ## Spec-side reformulation of the cache probe -/

/-- Spec wording for one candidate being usable: the path exists, is readable,
and its content digest equals the pinned expected digest. -/
def validTarget (hash : Bytes → String) (fs : FS) (i : Fin 3) : Bool :=
  match fs.files i with
  | some e => e.readable && decide (hash e.content = FONT_SHA256)
  | none => false

/-- Spec wording for the warning a scanned candidate produces: unreadable
paths and digest mismatches warn; missing paths and valid copies do not. -/
def noteOf (hash : Bytes → String) (fs : FS) (i : Fin 3) : Option Note :=
  match fs.files i with
  | none => none
  | some e =>
    if e.readable = false then some (Note.couldNotRead i)
    else if hash e.content = FONT_SHA256 then none
    else some (Note.unexpectedHash i (hash e.content))

/-- Spec-side restatement of the cache probe: the first valid candidate in
target-path-set order wins, and every candidate scanned before it that exists
but is unusable contributes one non-fatal warning. -/
def probeSpec (hash : Bytes → String) (fs : FS) : Option Bytes × List Note :=
  ((FONT_TARGETS.find? (validTarget hash fs)).bind (fun i => (fs.files i).map Entry.content),
   (FONT_TARGETS.takeWhile (fun i => !(validTarget hash fs i))).filterMap (noteOf hash fs))

theorem probeTargets_eq (hash : Bytes → String) (fs : FS) (ts : List (Fin 3)) :
    probeTargets hash fs ts
      = ((ts.find? (validTarget hash fs)).bind (fun i => (fs.files i).map Entry.content),
         (ts.takeWhile (fun i => !(validTarget hash fs i))).filterMap (noteOf hash fs)) := by
  induction ts with
  | nil => rfl
  | cons t rest ih =>
    rcases hf : fs.files t with _ | e
    · have hv : validTarget hash fs t = false := by simp [validTarget, hf]
      simp [probeTargets, hf, hv, List.find?_cons_of_neg, List.takeWhile_cons, ih,
        noteOf, List.filterMap_cons]
    · rcases hr : e.readable with _ | _
      · have hv : validTarget hash fs t = false := by simp [validTarget, hf, hr]
        have hn : noteOf hash fs t = some (Note.couldNotRead t) := by simp [noteOf, hf, hr]
        simp [probeTargets, hf, hr, hv, List.find?_cons_of_neg, List.takeWhile_cons, ih,
          hn, List.filterMap_cons]
      · by_cases hh : hash e.content = FONT_SHA256
        · have hv : validTarget hash fs t = true := by simp [validTarget, hf, hr, hh]
          simp [probeTargets, hf, hr, hh, hv, List.find?_cons_of_pos, List.takeWhile_cons]
        · have hv : validTarget hash fs t = false := by simp [validTarget, hf, hr, hh]
          have hn : noteOf hash fs t = some (Note.unexpectedHash t (hash e.content)) := by
            simp [noteOf, hf, hr, hh]
          simp [probeTargets, hf, hr, hh, hv, List.find?_cons_of_neg, List.takeWhile_cons, ih,
            hn, List.filterMap_cons]

theorem validTarget_of_find (hash : Bytes → String) (fs : FS) {ts : List (Fin 3)} {i : Fin 3}
    (h : ts.find? (validTarget hash fs) = some i) : validTarget hash fs i = true :=
  List.find?_some h

/-- If the probe returns bytes, they hash to the expected digest. -/
theorem existing_font_bytes_hash (hash : Bytes → String) (fs : FS) {b : Bytes}
    (h : (existing_font_bytes hash fs).1 = some b) : hash b = FONT_SHA256 := by
  have hp := probeTargets_eq hash fs FONT_TARGETS
  rw [existing_font_bytes, hp] at h
  rcases hfind : FONT_TARGETS.find? (validTarget hash fs) with _ | i
  · simp [hfind] at h
  · have hv := validTarget_of_find hash fs hfind
    rcases hf : fs.files i with _ | e
    · simp [hfind, hf] at h
    · simp only [hfind, Option.some_bind, hf] at h
      unfold validTarget at hv
      rw [hf] at hv
      simp at hv
      simp at h
      rw [← h]; exact hv.2

/-! ## Lemmas about one loop iteration of the distributor -/

theorem foldl_mkdir_eq (fs : FS) (i : Fin 3) :
    List.foldl applyOp fs [Op.mkdirP i] = { fs with dirs := Function.update fs.dirs i true } :=
  rfl

theorem foldl_write_eq (fs : FS) (i : Fin 3) (b : Bytes) :
    List.foldl applyOp fs [Op.mkdirP i, Op.writeTmp i b, Op.replaceTmp i]
      = ⟨Function.update fs.files i (some ⟨true, b⟩),
         Function.update fs.tmps i none,
         Function.update fs.dirs i true⟩ := by
  simp [List.foldl, applyOp, Function.update_same, Function.update_idem]

theorem step_congr (hash : Bytes → String) (b : Bytes) (force dry : Bool) {fs fs' : FS}
    (i : Fin 3) (h : fs.files i = fs'.files i) :
    step hash b force dry fs i = step hash b force dry fs' i := by
  unfold step; rw [h]

theorem step_ops_shape (hash : Bytes → String) (b : Bytes) (force dry : Bool) (fs : FS)
    (i : Fin 3) :
    (step hash b force dry fs i).1 = [Op.mkdirP i]
    ∨ (step hash b force dry fs i).1 = [Op.mkdirP i, Op.writeTmp i b, Op.replaceTmp i] := by
  rcases hf : fs.files i with _ | e <;> cases force <;> cases dry <;>
    simp [step, writeOps, hf, apply_ite Prod.fst] <;>
    rcases hr : e.readable with _ | _ <;>
    by_cases hh : hash e.content = FONT_SHA256 <;>
    simp [hr, hh]

theorem step_ops_dry (hash : Bytes → String) (b : Bytes) (force : Bool) (fs : FS) (i : Fin 3) :
    (step hash b force true fs i).1 = [Op.mkdirP i] := by
  rcases hf : fs.files i with _ | e <;> cases force <;>
    simp [step, writeOps, hf, apply_ite Prod.fst]

theorem step_skip (hash : Bytes → String) (b : Bytes) (dry : Bool) (fs : FS) (i : Fin 3)
    (e : Entry) (hf : fs.files i = some e) (hr : e.readable = true)
    (hh : hash e.content = FONT_SHA256) :
    step hash b false dry fs i = ([Op.mkdirP i], [Action.upToDate i]) := by
  simp [step, hf, hr, hh]

theorem step_unreadable (hash : Bytes → String) (b : Bytes) (dry : Bool) (fs : FS) (i : Fin 3)
    (e : Entry) (hf : fs.files i = some e) (hr : e.readable = false) :
    step hash b false dry fs i
      = (Op.mkdirP i :: writeOps i b dry, [Action.readWarning i, writeAct i dry]) := by
  simp [step, hf, hr]

theorem step_force (hash : Bytes → String) (b : Bytes) (dry : Bool) (fs : FS) (i : Fin 3) :
    step hash b true dry fs i = (Op.mkdirP i :: writeOps i b dry, [writeAct i dry]) := by
  rcases hf : fs.files i with _ | e <;> simp [step, hf]

theorem step_invalid_ops (hash : Bytes → String) (b : Bytes) (dry : Bool) (fs : FS) (i : Fin 3)
    (h : validTarget hash fs i = false) :
    (step hash b false dry fs i).1 = Op.mkdirP i :: writeOps i b dry := by
  unfold validTarget at h
  rcases hf : fs.files i with _ | e
  · simp [step, hf]
  · rw [hf] at h
    have h' : (e.readable && decide (hash e.content = FONT_SHA256)) = false := h
    rcases hr : e.readable with _ | _
    · simp [step, hf, hr]
    · have hh : ¬ hash e.content = FONT_SHA256 := by
        rw [hr] at h'; simpa using h'
      simp [step, hf, hr, hh]

/-- The dry-run rewriting of a status line: an actual write becomes an
intended write; everything else is unchanged. -/
def dryAction : Action → Action
  | Action.wrote i => Action.wouldWrite i
  | a => a

theorem step_acts_dry (hash : Bytes → String) (b : Bytes) (force : Bool) (fs : FS) (i : Fin 3) :
    (step hash b force true fs i).2 = List.map dryAction (step hash b force false fs i).2 := by
  rcases hf : fs.files i with _ | e <;> cases force <;>
    simp [step, writeAct, hf, apply_ite Prod.snd, dryAction] <;>
    rcases hr : e.readable with _ | _ <;>
    by_cases hh : hash e.content = FONT_SHA256 <;>
    simp [hr, hh, dryAction]

/-- The target index a status line is about. -/
def Action.idx : Action → Fin 3
  | Action.upToDate i => i
  | Action.mismatchRefresh i => i
  | Action.readWarning i => i
  | Action.wouldWrite i => i
  | Action.wrote i => i

theorem step_act_idx (hash : Bytes → String) (b : Bytes) (force dry : Bool) (fs : FS)
    (i : Fin 3) : ∀ a ∈ (step hash b force dry fs i).2, a.idx = i := by
  rcases hf : fs.files i with _ | e <;> cases force <;> cases dry <;>
    simp [step, writeAct, hf, apply_ite Prod.snd, Action.idx] <;>
    rcases hr : e.readable with _ | _ <;>
    by_cases hh : hash e.content = FONT_SHA256 <;>
    simp [hr, hh, Action.idx]

/-! ## Lemmas about the whole distributor loop -/

theorem step_run_files_ne (hash : Bytes → String) (b : Bytes) (force dry : Bool) (fs : FS)
    {i j : Fin 3} (hne : j ≠ i) :
    (List.foldl applyOp fs (step hash b force dry fs i).1).files j = fs.files j := by
  rcases step_ops_shape hash b force dry fs i with h | h <;> rw [h]
  · rfl
  · rw [foldl_write_eq]
    exact Function.update_noteq hne _ _

theorem step_run_tmps_ne (hash : Bytes → String) (b : Bytes) (force dry : Bool) (fs : FS)
    {i j : Fin 3} (hne : j ≠ i) :
    (List.foldl applyOp fs (step hash b force dry fs i).1).tmps j = fs.tmps j := by
  rcases step_ops_shape hash b force dry fs i with h | h <;> rw [h]
  · rfl
  · rw [foldl_write_eq]
    exact Function.update_noteq hne _ _

theorem step_run_dirs (hash : Bytes → String) (b : Bytes) (force dry : Bool) (fs : FS)
    (i j : Fin 3) :
    (List.foldl applyOp fs (step hash b force dry fs i).1).dirs j
      = if j = i then true else fs.dirs j := by
  rcases step_ops_shape hash b force dry fs i with h | h <;> rw [h]
  · rw [foldl_mkdir_eq]
    by_cases hj : j = i
    · subst hj; simp [Function.update_same]
    · simp [Function.update_noteq hj, hj]
  · rw [foldl_write_eq]
    by_cases hj : j = i
    · subst hj; simp [Function.update_same]
    · simp [Function.update_noteq hj, hj]

/-- The per-target result of one iteration is the same from any two states that
agree on that target's file. -/
theorem step_run_files_self (hash : Bytes → String) (b : Bytes) (force dry : Bool)
    {fs fs' : FS} (i : Fin 3) (h : fs.files i = fs'.files i) :
    (List.foldl applyOp fs (step hash b force dry fs i).1).files i
      = (List.foldl applyOp fs' (step hash b force dry fs' i).1).files i := by
  rw [step_congr hash b force dry i h]
  rcases step_ops_shape hash b force dry fs' i with hs | hs <;> rw [hs]
  · rw [foldl_mkdir_eq, foldl_mkdir_eq]; exact h
  · rw [foldl_write_eq, foldl_write_eq]
    simp [Function.update_same]

theorem ensure_go_files_frame (hash : Bytes → String) (b : Bytes) (force dry : Bool)
    (ts : List (Fin 3)) (fs : FS) {j : Fin 3} (hj : j ∉ ts) :
    (ensure_go hash b force dry fs ts).1.files j = fs.files j := by
  induction ts generalizing fs with
  | nil => rfl
  | cons t rest ih =>
    have hjt : j ≠ t := fun hcontra => hj (hcontra ▸ List.mem_cons_self t rest)
    have hjr : j ∉ rest := fun hcontra => hj (List.mem_cons_of_mem t hcontra)
    show (ensure_go hash b force dry (List.foldl applyOp fs (step hash b force dry fs t).1) rest).1.files j = _
    rw [ih _ hjr, step_run_files_ne hash b force dry fs hjt]

theorem ensure_go_tmps_frame (hash : Bytes → String) (b : Bytes) (force dry : Bool)
    (ts : List (Fin 3)) (fs : FS) {j : Fin 3} (hj : j ∉ ts) :
    (ensure_go hash b force dry fs ts).1.tmps j = fs.tmps j := by
  induction ts generalizing fs with
  | nil => rfl
  | cons t rest ih =>
    have hjt : j ≠ t := fun hcontra => hj (hcontra ▸ List.mem_cons_self t rest)
    have hjr : j ∉ rest := fun hcontra => hj (List.mem_cons_of_mem t hcontra)
    show (ensure_go hash b force dry (List.foldl applyOp fs (step hash b force dry fs t).1) rest).1.tmps j = _
    rw [ih _ hjr, step_run_tmps_ne hash b force dry fs hjt]

/-- With distinct targets, the status lines of the whole loop are those of each
iteration computed against the initial state, concatenated in order. -/
theorem ensure_go_acts_decomp (hash : Bytes → String) (b : Bytes) (force dry : Bool)
    (ts : List (Fin 3)) (fs : FS) (hnd : ts.Nodup) :
    (ensure_go hash b force dry fs ts).2.1
      = ts.flatMap (fun j => (step hash b force dry fs j).2) := by
  induction ts generalizing fs with
  | nil => rfl
  | cons t rest ih =>
    rcases List.nodup_cons.mp hnd with ⟨htr, hrest⟩
    show (step hash b force dry fs t).2
        ++ (ensure_go hash b force dry (List.foldl applyOp fs (step hash b force dry fs t).1) rest).2.1 = _
    rw [List.flatMap_cons]
    congr 1
    rw [ih _ hrest]
    apply List.flatMap_congr
    intro j hj
    have hne : j ≠ t := fun hcontra => htr (hcontra ▸ hj)
    exact congrArg Prod.snd
      (step_congr hash b force dry j (step_run_files_ne hash b force dry fs hne))

/-- With distinct targets, each target's final file is what its own iteration,
run against the initial state, leaves there. -/
theorem ensure_go_files_final (hash : Bytes → String) (b : Bytes) (force dry : Bool)
    (ts : List (Fin 3)) (fs : FS) (hnd : ts.Nodup) {j : Fin 3} (hj : j ∈ ts) :
    (ensure_go hash b force dry fs ts).1.files j
      = (List.foldl applyOp fs (step hash b force dry fs j).1).files j := by
  induction ts generalizing fs with
  | nil => cases hj
  | cons t rest ih =>
    rcases List.nodup_cons.mp hnd with ⟨htr, hrest⟩
    show (ensure_go hash b force dry (List.foldl applyOp fs (step hash b force dry fs t).1) rest).1.files j = _
    rcases List.mem_cons.mp hj with hjt | hjr
    · subst hjt
      rw [ensure_go_files_frame hash b force dry rest _ htr]
    · have hne : j ≠ t := fun hcontra => htr (hcontra ▸ hjr)
      rw [ih _ hrest hjr]
      exact step_run_files_self hash b force dry j
        (step_run_files_ne hash b force dry fs hne)

theorem validTarget_congr (hash : Bytes → String) {fs fs' : FS} (i : Fin 3)
    (h : fs.files i = fs'.files i) : validTarget hash fs i = validTarget hash fs' i := by
  unfold validTarget; rw [h]

theorem validTarget_elim (hash : Bytes → String) {fs : FS} {i : Fin 3}
    (h : validTarget hash fs i = true) :
    ∃ e, fs.files i = some e ∧ e.readable = true ∧ hash e.content = FONT_SHA256 := by
  unfold validTarget at h
  rcases hf : fs.files i with _ | e
  · rw [hf] at h; cases h
  · rw [hf] at h
    have h' : (e.readable && decide (hash e.content = FONT_SHA256)) = true := h
    simp at h'
    exact ⟨e, rfl, h'.1, h'.2⟩

theorem validTarget_of_written (hash : Bytes → String) {fs : FS} {i : Fin 3} {b : Bytes}
    (h : fs.files i = some ⟨true, b⟩) (hb : hash b = FONT_SHA256) :
    validTarget hash fs i = true := by
  unfold validTarget; rw [h]; simp [hb]

/-- After one wet (non-dry) iteration, the target it treated holds a valid
copy, whether it was skipped as up to date or (re)written. -/
theorem step_valid_after (hash : Bytes → String) (b : Bytes) (force : Bool) (fs : FS)
    (i : Fin 3) (hb : hash b = FONT_SHA256) :
    validTarget hash (List.foldl applyOp fs (step hash b force false fs i).1) i = true := by
  cases force with
  | true =>
      rw [step_force]
      show validTarget hash (List.foldl applyOp fs [Op.mkdirP i, Op.writeTmp i b, Op.replaceTmp i]) i = true
      rw [foldl_write_eq]
      exact validTarget_of_written hash (by simp [Function.update_same]) hb
  | false =>
      rcases hv : validTarget hash fs i with _ | _
      · rw [step_invalid_ops hash b false fs i hv]
        show validTarget hash (List.foldl applyOp fs [Op.mkdirP i, Op.writeTmp i b, Op.replaceTmp i]) i = true
        rw [foldl_write_eq]
        exact validTarget_of_written hash (by simp [Function.update_same]) hb
      · rcases validTarget_elim hash hv with ⟨e, hf, hr, hh⟩
        rw [step_skip hash b false fs i e hf hr hh, foldl_mkdir_eq]
        rw [← hv]
        exact validTarget_congr hash i rfl

theorem ensure_go_dirs (hash : Bytes → String) (b : Bytes) (force dry : Bool)
    (ts : List (Fin 3)) (fs : FS) (j : Fin 3) :
    (ensure_go hash b force dry fs ts).1.dirs j = (fs.dirs j || decide (j ∈ ts)) := by
  induction ts generalizing fs with
  | nil => simp [ensure_go]
  | cons t rest ih =>
    show (ensure_go hash b force dry (List.foldl applyOp fs (step hash b force dry fs t).1) rest).1.dirs j = _
    rw [ih, step_run_dirs]
    by_cases hj : j = t
    · subst hj; simp
    · simp [hj, List.mem_cons]

/-- If every target in the list already holds a valid copy, the parent
directories already exist, and `force` is off, the loop does nothing but
re-issue `mkdir` and report every target up to date. -/
theorem ensure_go_skip_all (hash : Bytes → String) (b : Bytes) (dry : Bool)
    (ts : List (Fin 3)) (fs : FS)
    (hvalid : ∀ j ∈ ts, validTarget hash fs j = true)
    (hdirs : ∀ j, fs.dirs j = true) :
    ensure_go hash b false dry fs ts = (fs, ts.map Action.upToDate, ts.map Op.mkdirP) := by
  induction ts with
  | nil => rfl
  | cons t rest ih =>
    rcases validTarget_elim hash (hvalid t (List.mem_cons_self t rest)) with ⟨e, hf, hr, hh⟩
    have hstep := step_skip hash b dry fs t e hf hr hh
    have hfs1 : List.foldl applyOp fs (step hash b false dry fs t).1 = fs := by
      rw [hstep, foldl_mkdir_eq]
      have hupd : Function.update fs.dirs t true = fs.dirs := by
        conv_lhs => rw [← hdirs t]
        exact Function.update_eq_self t fs.dirs
      rw [hupd]
    show ((ensure_go hash b false dry (List.foldl applyOp fs (step hash b false dry fs t).1) rest).1,
        (step hash b false dry fs t).2
          ++ (ensure_go hash b false dry (List.foldl applyOp fs (step hash b false dry fs t).1) rest).2.1,
        (step hash b false dry fs t).1
          ++ (ensure_go hash b false dry (List.foldl applyOp fs (step hash b false dry fs t).1) rest).2.2) = _
    rw [hfs1, hstep, ih (fun j hj => hvalid j (List.mem_cons_of_mem t hj))]
    simp

/-- A dry run leaves every file and every temp sibling untouched. -/
theorem ensure_go_dry_state (hash : Bytes → String) (b : Bytes) (force : Bool)
    (ts : List (Fin 3)) (fs : FS) :
    (ensure_go hash b force true fs ts).1.files = fs.files
    ∧ (ensure_go hash b force true fs ts).1.tmps = fs.tmps := by
  induction ts generalizing fs with
  | nil => exact ⟨rfl, rfl⟩
  | cons t rest ih =>
    show (ensure_go hash b force true (List.foldl applyOp fs (step hash b force true fs t).1) rest).1.files = _
      ∧ (ensure_go hash b force true (List.foldl applyOp fs (step hash b force true fs t).1) rest).1.tmps = _
    rw [step_ops_dry, foldl_mkdir_eq]
    exact ih _

/-! ## Concrete fixtures used by witnesses -/

/-- A concrete stand-in for the digest function: only the payload `[1]` hashes
to the pinned digest. -/
def hashStub : Bytes → String := fun b => if b = [1] then FONT_SHA256 else "nope"

/-- A filesystem with no target files, no temp files, no directories. -/
def fsEmpty : FS := ⟨fun _ => none, fun _ => none, fun _ => false⟩

/-- A filesystem where every target already holds the valid payload. -/
def fsInstalled : FS := ⟨fun _ => some ⟨true, [1]⟩, fun _ => none, fun _ => true⟩

/-- A filesystem where every target exists but reading raises `OSError`. -/
def fsBad : FS := ⟨fun _ => some ⟨false, [9]⟩, fun _ => none, fun _ => false⟩

/-! ## Claims -/

/-- C2: `existing_font_bytes` scans the target paths in target-path-set order
and returns the bytes of the first existing, readable path whose digest equals
the pinned expected digest; a path that is unreadable or whose digest
mismatches only produces a non-fatal warning and scanning continues; if no
path matches, it returns `None`. -/
theorem claim_cache_probe (hash : Bytes → String) (fs : FS) :
    existing_font_bytes hash fs = probeSpec hash fs
    ∧ ((existing_font_bytes hash fs).1 = none ↔ ∀ i : Fin 3, validTarget hash fs i = false) := by
  have hp := probeTargets_eq hash fs FONT_TARGETS
  have hmem : ∀ i : Fin 3, i ∈ FONT_TARGETS := by decide
  refine ⟨hp, ?_, ?_⟩
  · intro h
    have h0 : (probeTargets hash fs FONT_TARGETS).1 = none := h
    rw [hp] at h0
    intro i
    rcases hfind : FONT_TARGETS.find? (validTarget hash fs) with _ | j
    · have := List.find?_eq_none.mp hfind i (hmem i)
      simpa using this
    · rw [hfind] at h0
      rcases validTarget_elim hash (List.find?_some hfind) with ⟨e, hf, _, _⟩
      rw [Option.some_bind, hf] at h0
      simp at h0
  · intro hall
    have hfind : FONT_TARGETS.find? (validTarget hash fs) = none :=
      List.find?_eq_none.mpr (fun x _ => by simp [hall x])
    show (probeTargets hash fs FONT_TARGETS).1 = none
    rw [hp, hfind]
    rfl

/-- C1: if the fetched payload's digest differs from the pinned digest,
`download_font` fails with a message built from both the expected and the
actual digest; `main` propagates that fatal error, never reaches the
distributor, and leaves the filesystem untouched. -/
theorem claim_integrity_gate (hash : Bytes → String) (payload : Bytes) (force dry : Bool)
    (fs : FS) (hmis : hash payload ≠ FONT_SHA256)
    (hnc : force = true ∨ (existing_font_bytes hash fs).1 = none) :
    download_font hash (Net.ok payload)
      = Except.error ("Downloaded font does not match expected SHA-256. Expected "
          ++ FONT_SHA256 ++ ", got " ++ hash payload ++ ".")
    ∧ main hash (Net.ok payload) force dry fs
      = (fs, Except.error ("Downloaded font does not match expected SHA-256. Expected "
          ++ FONT_SHA256 ++ ", got " ++ hash payload ++ ".")) := by
  have hd : download_font hash (Net.ok payload)
      = Except.error ("Downloaded font does not match expected SHA-256. Expected "
          ++ FONT_SHA256 ++ ", got " ++ hash payload ++ ".") := by
    simp [download_font, hmis]
  refine ⟨hd, ?_⟩
  unfold main
  rcases hnc with h | h
  · subst h
    simp [hd]
  · cases force <;> simp [h, hd]

theorem claim_integrity_gate_witness :
    main hashStub (Net.ok [2]) false false fsEmpty
      = (fsEmpty, Except.error ("Downloaded font does not match expected SHA-256. Expected "
          ++ FONT_SHA256 ++ ", got " ++ hashStub [2] ++ ".")) :=
  (claim_integrity_gate hashStub [2] false false fsEmpty (by decide) (Or.inr (by decide))).2

theorem ensure_dirs_true (hash : Bytes → String) (b : Bytes) (force dry : Bool)
    (fs : FS) : ∀ i : Fin 3, (ensure_targets hash b force dry fs).1.dirs i = true := by
  intro i
  show (ensure_go hash b force dry fs FONT_TARGETS).1.dirs i = true
  rw [ensure_go_dirs]
  have hmem : i ∈ FONT_TARGETS := by fin_cases i <;> decide
  simp [hmem]

/-- C9: `ensure_targets` creates every target's parent directory before the
dry-run flag is consulted, so the directories exist after every invocation,
dry run included. -/
theorem claim_mkdir_before_dry_run (hash : Bytes → String) (b : Bytes) (force dry : Bool)
    (fs : FS) : ∀ i : Fin 3, (ensure_targets hash b force dry fs).1.dirs i = true :=
  ensure_dirs_true hash b force dry fs

/-- C10: with `force` off, a target whose read raises `OSError` is warned
about and then falls through to the write branch: it is never reported up to
date, it is reported written (or would-write in dry run), and in a wet run it
ends up holding the payload. -/
theorem claim_unreadable_refreshed (hash : Bytes → String) (b : Bytes) (dry : Bool) (fs : FS)
    (i : Fin 3) (e : Entry) (hf : fs.files i = some e) (hr : e.readable = false) :
    Action.upToDate i ∉ (ensure_targets hash b false dry fs).2
    ∧ Action.readWarning i ∈ (ensure_targets hash b false dry fs).2
    ∧ writeAct i dry ∈ (ensure_targets hash b false dry fs).2
    ∧ (dry = false → (ensure_targets hash b false dry fs).1.files i = some ⟨true, b⟩) := by
  have hnd : FONT_TARGETS.Nodup := by decide
  have hmem : i ∈ FONT_TARGETS := by fin_cases i <;> decide
  have hacts : (ensure_targets hash b false dry fs).2
      = FONT_TARGETS.flatMap (fun j => (step hash b false dry fs j).2) :=
    ensure_go_acts_decomp hash b false dry FONT_TARGETS fs hnd
  have hstep := step_unreadable hash b dry fs i e hf hr
  have hinvalid : validTarget hash fs i = false := by
    simp [validTarget, hf, hr]
  refine ⟨?_, ?_, ?_, ?_⟩
  · rw [hacts]
    intro hmemacts
    rcases List.mem_flatMap.mp hmemacts with ⟨j, hj, haj⟩
    have hidx := step_act_idx hash b false dry fs j _ haj
    have hij : i = j := by simpa [Action.idx] using hidx
    subst hij
    rw [hstep] at haj
    cases dry <;> simp [writeAct] at haj
  · rw [hacts]
    exact List.mem_flatMap.mpr ⟨i, hmem, by rw [hstep]; simp⟩
  · rw [hacts]
    exact List.mem_flatMap.mpr ⟨i, hmem, by rw [hstep]; simp⟩
  · intro hdry
    subst hdry
    show (ensure_go hash b false false fs FONT_TARGETS).1.files i = _
    rw [ensure_go_files_final hash b false false FONT_TARGETS fs hnd hmem,
      step_invalid_ops hash b false fs i hinvalid]
    show (List.foldl applyOp fs [Op.mkdirP i, Op.writeTmp i b, Op.replaceTmp i]).files i = _
    rw [foldl_write_eq]
    simp [Function.update_same]

theorem claim_unreadable_refreshed_witness :
    Action.upToDate 0 ∉ (ensure_targets hashStub [1] false false fsBad).2
    ∧ Action.readWarning 0 ∈ (ensure_targets hashStub [1] false false fsBad).2
    ∧ writeAct 0 false ∈ (ensure_targets hashStub [1] false false fsBad).2
    ∧ (false = false → (ensure_targets hashStub [1] false false fsBad).1.files 0
        = some ⟨true, [1]⟩) :=
  claim_unreadable_refreshed hashStub [1] false fsBad 0 ⟨false, [9]⟩ rfl rfl

theorem ensure_go_acts_dry (hash : Bytes → String) (b : Bytes) (force : Bool) (fs : FS) :
    (ensure_go hash b force true fs FONT_TARGETS).2.1
      = List.map dryAction (ensure_go hash b force false fs FONT_TARGETS).2.1 := by
  have hnd : FONT_TARGETS.Nodup := by decide
  rw [ensure_go_acts_decomp hash b force true FONT_TARGETS fs hnd,
    ensure_go_acts_decomp hash b force false FONT_TARGETS fs hnd,
    List.map_flatMap]
  exact List.flatMap_congr (fun j _ => step_acts_dry hash b force fs j)

/-- Unfolding of `main` with `force` off. -/
theorem main_false_unfold (hash : Bytes → String) (net : Net) (dry : Bool) (fs : FS) :
    main hash net false dry fs
      = (match (existing_font_bytes hash fs).1 with
         | some b => ((ensure_targets hash b false dry fs).1,
             Except.ok (ensure_targets hash b false dry fs).2)
         | none =>
           match download_font hash net with
           | Except.error e => (fs, Except.error e)
           | Except.ok payload => ((ensure_targets hash payload false dry fs).1,
               Except.ok (ensure_targets hash payload false dry fs).2)) := rfl

/-- Unfolding of `main` with `force` on. -/
theorem main_force_unfold (hash : Bytes → String) (net : Net) (dry : Bool) (fs : FS) :
    main hash net true dry fs
      = (match download_font hash net with
         | Except.error e => (fs, Except.error e)
         | Except.ok payload => ((ensure_targets hash payload true dry fs).1,
             Except.ok (ensure_targets hash payload true dry fs).2)) := rfl

/-- C4: with `--dry-run`, no target file and no temp file is created or
modified for any prior filesystem state, and the status report is exactly the
wet run's report with each actual write replaced by the intended write. -/
theorem claim_dry_run_safety (hash : Bytes → String) (net : Net) (force : Bool) (fs : FS) :
    (main hash net force true fs).1.files = fs.files
    ∧ (main hash net force true fs).1.tmps = fs.tmps
    ∧ (main hash net force true fs).2
        = Except.map (List.map dryAction) (main hash net force false fs).2 := by
  have trio : ∀ b : Bytes, ∀ fc : Bool,
      (ensure_targets hash b fc true fs).1.files = fs.files
      ∧ (ensure_targets hash b fc true fs).1.tmps = fs.tmps
      ∧ (ensure_targets hash b fc true fs).2
          = List.map dryAction (ensure_targets hash b fc false fs).2 :=
    fun b fc => ⟨(ensure_go_dry_state hash b fc FONT_TARGETS fs).1,
      (ensure_go_dry_state hash b fc FONT_TARGETS fs).2,
      ensure_go_acts_dry hash b fc fs⟩
  cases force with
  | false =>
      rw [main_false_unfold, main_false_unfold]
      rcases hc : (existing_font_bytes hash fs).1 with _ | b
      · rcases hdl : download_font hash net with e | payload
        · exact ⟨rfl, rfl, rfl⟩
        · exact ⟨(trio payload false).1, (trio payload false).2.1,
            congrArg Except.ok (trio payload false).2.2⟩
      · exact ⟨(trio b false).1, (trio b false).2.1,
          congrArg Except.ok (trio b false).2.2⟩
  | true =>
      rw [main_force_unfold, main_force_unfold]
      rcases hdl : download_font hash net with e | payload
      · exact ⟨rfl, rfl, rfl⟩
      · exact ⟨(trio payload true).1, (trio payload true).2.1,
          congrArg Except.ok (trio payload true).2.2⟩

theorem ensure_go_force_all (hash : Bytes → String) (b : Bytes) (fs : FS) :
    (ensure_targets hash b true false fs).2 = FONT_TARGETS.map Action.wrote
    ∧ ∀ i : Fin 3, (ensure_targets hash b true false fs).1.files i = some ⟨true, b⟩ := by
  have hnd : FONT_TARGETS.Nodup := by decide
  constructor
  · rw [show (ensure_targets hash b true false fs).2
        = (ensure_go hash b true false fs FONT_TARGETS).2.1 from rfl,
      ensure_go_acts_decomp hash b true false FONT_TARGETS fs hnd]
    have : ∀ j ∈ FONT_TARGETS, (step hash b true false fs j).2 = [Action.wrote j] := by
      intro j _
      rw [step_force]
      rfl
    rw [List.flatMap_congr this]
    rfl
  · intro i
    have hmem : i ∈ FONT_TARGETS := by fin_cases i <;> decide
    show (ensure_go hash b true false fs FONT_TARGETS).1.files i = _
    rw [ensure_go_files_final hash b true false FONT_TARGETS fs hnd hmem, step_force]
    show (List.foldl applyOp fs [Op.mkdirP i, Op.writeTmp i b, Op.replaceTmp i]).files i = _
    rw [foldl_write_eq]
    simp [Function.update_same]

/-- C5: with `--force`, the cache probe is bypassed (the payload always comes
from the network: a transport failure is fatal even if a valid cached copy
exists), and every target path is rewritten with the payload bytes, even when
its existing content already matches the expected digest. -/
theorem claim_force_semantics (hash : Bytes → String) (payload : Bytes) (fs : FS)
    (hok : hash payload = FONT_SHA256) :
    (∃ fs', main hash (Net.ok payload) true false fs
        = (fs', Except.ok (FONT_TARGETS.map Action.wrote))
      ∧ ∀ i : Fin 3, fs'.files i = some ⟨true, payload⟩)
    ∧ ∀ e, main hash (Net.urlError e) true false fs
        = (fs, Except.error ("Failed to download " ++ FONT_URL ++ ": " ++ e)) := by
  constructor
  · have hdl : download_font hash (Net.ok payload) = Except.ok payload := by
      simp [download_font, hok]
    refine ⟨(ensure_targets hash payload true false fs).1, ?_, (ensure_go_force_all hash payload fs).2⟩
    rw [main_force_unfold, hdl]
    show ((ensure_targets hash payload true false fs).1,
        Except.ok (ensure_targets hash payload true false fs).2)
      = ((ensure_targets hash payload true false fs).1,
        Except.ok (FONT_TARGETS.map Action.wrote))
    rw [(ensure_go_force_all hash payload fs).1]
  · intro e
    rw [main_force_unfold]
    rfl

theorem claim_force_semantics_witness :
    (∃ fs', main hashStub (Net.ok [1]) true false fsInstalled
        = (fs', Except.ok (FONT_TARGETS.map Action.wrote))
      ∧ ∀ i : Fin 3, fs'.files i = some ⟨true, [1]⟩)
    ∧ ∀ e, main hashStub (Net.urlError e) true false fsInstalled
        = (fsInstalled, Except.error ("Failed to download " ++ FONT_URL ++ ": " ++ e)) :=
  claim_force_semantics hashStub [1] fsInstalled (by decide)

/-- After any successful wet non-forced run, every target holds a valid copy
and every parent directory exists. -/
theorem ensure_establishes (hash : Bytes → String) (b : Bytes) (fs : FS)
    (hb : hash b = FONT_SHA256) :
    (∀ j : Fin 3, validTarget hash (ensure_targets hash b false false fs).1 j = true)
    ∧ ∀ j : Fin 3, (ensure_targets hash b false false fs).1.dirs j = true := by
  have hnd : FONT_TARGETS.Nodup := by decide
  constructor
  · intro j
    have hmem : j ∈ FONT_TARGETS := by fin_cases j <;> decide
    have hfin := ensure_go_files_final hash b false false FONT_TARGETS fs hnd hmem
    have := validTarget_congr hash j hfin
    rw [show (ensure_targets hash b false false fs).1
        = (ensure_go hash b false false fs FONT_TARGETS).1 from rfl, this]
    exact step_valid_after hash b false fs j hb
  · intro j
    exact ensure_dirs_true hash b false false fs j

/-- C3: if a non-forced wet run of `main` succeeds, running it again on the
resulting filesystem changes nothing and reports every target up to date (so
no write operation is issued on the second run). -/
theorem claim_idempotence (hash : Bytes → String) (net : Net) (fs fs₁ : FS)
    (acts : List Action)
    (h : main hash net false false fs = (fs₁, Except.ok acts)) :
    main hash net false false fs₁ = (fs₁, Except.ok (FONT_TARGETS.map Action.upToDate)) := by
  -- extract the distributed payload and its validity from the first run
  have hexists : ∃ b, hash b = FONT_SHA256 ∧ (ensure_targets hash b false false fs).1 = fs₁ := by
    rw [main_false_unfold] at h
    rcases hc : (existing_font_bytes hash fs).1 with _ | b
    · rw [hc] at h
      rcases net with e | payload
      · rw [show download_font hash (Net.urlError e)
            = Except.error ("Failed to download " ++ FONT_URL ++ ": " ++ e) from rfl] at h
        simp at h
      · by_cases hp : hash payload = FONT_SHA256
        · have hdl : download_font hash (Net.ok payload) = Except.ok payload := by
            simp [download_font, hp]
          rw [hdl] at h
          exact ⟨payload, hp, congrArg Prod.fst h⟩
        · have hdl : download_font hash (Net.ok payload)
              = Except.error ("Downloaded font does not match expected SHA-256. Expected "
                ++ FONT_SHA256 ++ ", got " ++ hash payload ++ ".") := by
            simp [download_font, hp]
          rw [hdl] at h
          simp at h
    · rw [hc] at h
      exact ⟨b, existing_font_bytes_hash hash fs hc, congrArg Prod.fst h⟩
  rcases hexists with ⟨b, hb, hfs₁⟩
  have hvalid : ∀ j : Fin 3, validTarget hash fs₁ j = true := by
    rw [← hfs₁]; exact (ensure_establishes hash b fs hb).1
  have hdirs : ∀ j : Fin 3, fs₁.dirs j = true := by
    rw [← hfs₁]; exact (ensure_establishes hash b fs hb).2
  -- the second run's cache probe hits the first target
  rcases validTarget_elim hash (hvalid 0) with ⟨e, hf0, _, _⟩
  have hprobe : (existing_font_bytes hash fs₁).1 = some e.content := by
    rw [existing_font_bytes, probeTargets_eq]
    show ((FONT_TARGETS.find? (validTarget hash fs₁)).bind
      (fun i => (fs₁.files i).map Entry.content)) = some e.content
    rw [show FONT_TARGETS = 0 :: [1, 2] from rfl, List.find?_cons_of_pos _ (hvalid 0),
      Option.some_bind, hf0]
    rfl
  rw [main_false_unfold, hprobe]
  have hskip := ensure_go_skip_all hash e.content false FONT_TARGETS fs₁
    (fun j _ => hvalid j) hdirs
  show ((ensure_targets hash e.content false false fs₁).1,
      Except.ok (ensure_targets hash e.content false false fs₁).2)
    = (fs₁, Except.ok (FONT_TARGETS.map Action.upToDate))
  rw [show (ensure_targets hash e.content false false fs₁)
      = ((ensure_go hash e.content false false fs₁ FONT_TARGETS).1,
        (ensure_go hash e.content false false fs₁ FONT_TARGETS).2.1) from rfl, hskip]

theorem claim_idempotence_witness :
    main hashStub (Net.ok [1]) false false fsInstalled
      = (fsInstalled, Except.ok (FONT_TARGETS.map Action.upToDate)) := by
  have h : main hashStub (Net.ok [1]) false false fsEmpty
      = (fsInstalled, Except.ok [Action.wrote 0, Action.wrote 1, Action.wrote 2]) := by decide
  exact claim_idempotence hashStub (Net.ok [1]) fsEmpty fsInstalled
    [Action.wrote 0, Action.wrote 1, Action.wrote 2] h

/-- The final state of the loop is exactly the fold of its full operation
trace, so the intermediate states of a run are the folds of the trace's
initial segments. -/
theorem ensure_go_foldl (hash : Bytes → String) (b : Bytes) (force dry : Bool)
    (ts : List (Fin 3)) (fs : FS) :
    (ensure_go hash b force dry fs ts).1
      = List.foldl applyOp fs (ensure_go hash b force dry fs ts).2.2 := by
  induction ts generalizing fs with
  | nil => rfl
  | cons t rest ih =>
    show (ensure_go hash b force dry (List.foldl applyOp fs (step hash b force dry fs t).1) rest).1
      = List.foldl applyOp fs ((step hash b force dry fs t).1
          ++ (ensure_go hash b force dry (List.foldl applyOp fs (step hash b force dry fs t).1) rest).2.2)
    rw [List.foldl_append]
    exact ih _

theorem ensure_go_take_safety (hash : Bytes → String) (b : Bytes) (force dry : Bool)
    (ts : List (Fin 3)) (fs : FS) (n : Nat) (i : Fin 3) :
    (List.foldl applyOp fs (((ensure_go hash b force dry fs ts).2.2).take n)).files i
        = fs.files i
    ∨ (List.foldl applyOp fs (((ensure_go hash b force dry fs ts).2.2).take n)).files i
        = some ⟨true, b⟩ := by
  induction ts generalizing fs n with
  | nil =>
    left
    show (List.foldl applyOp fs (List.take n [])).files i = fs.files i
    rw [List.take_nil]
    rfl
  | cons t rest ih =>
    have hops : (ensure_go hash b force dry fs (t :: rest)).2.2
        = (step hash b force dry fs t).1
          ++ (ensure_go hash b force dry
              (List.foldl applyOp fs (step hash b force dry fs t).1) rest).2.2 := rfl
    rw [hops, List.take_append_eq_append_take, List.foldl_append]
    rcases step_ops_shape hash b force dry fs t with hs | hs <;> rw [hs]
    · -- skipped or dry target: its only operation is the mkdir
      rcases n with _ | m
      · left; rfl
      · rw [show List.take (m + 1) [Op.mkdirP t] = [Op.mkdirP t] from
            List.take_of_length_le (by simp),
          show m + 1 - [Op.mkdirP t].length = m from by simp,
          foldl_mkdir_eq]
        exact ih { fs with dirs := Function.update fs.dirs t true } m
    · -- written target: temp write then atomic replace
      rcases n with _ | _ | _ | m
      · left; rfl
      · -- interrupted after mkdir: nothing written to the target yet
        left; rfl
      · -- interrupted between the temp-file write and the rename: the target
        -- path still holds its old entry, the payload sits at the temp sibling
        left; rfl
      · -- the rename completed; the target now holds the whole payload
        rw [show List.take (m + 3) [Op.mkdirP t, Op.writeTmp t b, Op.replaceTmp t]
            = [Op.mkdirP t, Op.writeTmp t b, Op.replaceTmp t] from
            List.take_of_length_le (by simp),
          show m + 3 - [Op.mkdirP t, Op.writeTmp t b, Op.replaceTmp t].length = m from by simp,
          foldl_write_eq]
        rcases ih ⟨Function.update fs.files t (some ⟨true, b⟩),
            Function.update fs.tmps t none, Function.update fs.dirs t true⟩ m with hc | hc
        · rw [hc]
          by_cases hit : i = t
          · subst hit
            right
            show Function.update fs.files i (some ⟨true, b⟩) i = _
            rw [Function.update_same]
          · left
            show Function.update fs.files t (some ⟨true, b⟩) i = _
            rw [Function.update_noteq hit]
        · right; rw [hc]

/-- C6: at every point of a run of `ensure_targets` — in particular at an
interruption between the temp-file write and the rename — each target path
holds either its original entry or the complete new payload, never anything
else: folding any initial segment of the operation trace never puts partial
data at a target path. -/
theorem claim_atomic_write (hash : Bytes → String) (b : Bytes) (force dry : Bool)
    (fs : FS) (n : Nat) (i : Fin 3) :
    (List.foldl applyOp fs ((ensure_ops hash b force dry fs).take n)).files i = fs.files i
    ∨ (List.foldl applyOp fs ((ensure_ops hash b force dry fs).take n)).files i
        = some ⟨true, b⟩ :=
  ensure_go_take_safety hash b force dry FONT_TARGETS fs n i

theorem sort_required : ({'А', 'Б', 'я'} : Finset Char).sort (· ≤ ·) = ['А', 'Б', 'я'] := by
  rw [Finset.sort_insert, Finset.sort_insert, Finset.sort_singleton] <;> decide

/-- C7: with required characters `{А, Б, я}` and a character map that covers
`А` and `Б` but not `я`, the glyph audit fails and its message names `я` (and
only `я`) as missing. -/
theorem claim_glyph_audit (path : String) (cmap : List Nat)
    (hA : ('А').toNat ∈ cmap)
    (hB : ('Б').toNat ∈ cmap)
    (hya : ('я').toNat ∉ cmap) :
    verify_font_contains path cmap {'А', 'Б', 'я'}
      = Except.error (path ++ " is missing glyphs for: " ++ String.mk ['я'])
    ∧ 'я' ∈ (path ++ " is missing glyphs for: " ++ String.mk ['я']).data := by
  have hA' : (1040 : Nat) ∈ cmap := hA
  have hB' : (1041 : Nat) ∈ cmap := hB
  have hya' : (1103 : Nat) ∉ cmap := hya
  constructor
  · unfold verify_font_contains
    rw [sort_required]
    simp [List.filter_cons, hA', hB', hya']
  · rw [String.data_append]
    simp

theorem claim_glyph_audit_witness :
    verify_font_contains "f" [1040, 1041] {'А', 'Б', 'я'}
      = Except.error ("f" ++ " is missing glyphs for: " ++ String.mk ['я'])
    ∧ 'я' ∈ (("f" : String) ++ " is missing glyphs for: " ++ String.mk ['я']).data :=
  claim_glyph_audit "f" [1040, 1041] (by decide) (by decide) (by decide)

/-- C8: if the collected required-character set is empty, the verifier's
`main` fails with the empty-corpus message right after a successful install,
before any per-font glyph check is reached. -/
theorem claim_empty_corpus (hash : Bytes → String) (net : Net) (fs : FS)
    (isCyr : Char → Bool) (configTexts : List String) (cmaps : Fin 3 → List Nat)
    (acts : List Action)
    (hok : (main hash net false false fs).2 = Except.ok acts)
    (hempty : load_required_characters isCyr configTexts = ∅) :
    test_fonts_main hash net fs isCyr configTexts cmaps
      = Except.error "Did not detect any Cyrillic characters to verify." := by
  unfold test_fonts_main
  rw [hok]
  simp [hempty]

theorem claim_empty_corpus_witness :
    test_fonts_main hashStub (Net.ok [1]) fsEmpty (fun _ => false) [] (fun _ => [])
      = Except.error "Did not detect any Cyrillic characters to verify." := by
  have hok : (main hashStub (Net.ok [1]) false false fsEmpty).2
      = Except.ok [Action.wrote 0, Action.wrote 1, Action.wrote 2] := by decide
  have hempty : load_required_characters (fun _ => false) [] = ∅ := by decide
  exact claim_empty_corpus hashStub (Net.ok [1]) fsEmpty (fun _ => false) [] (fun _ => [])
    [Action.wrote 0, Action.wrote 1, Action.wrote 2] hok hempty

end Fonts
